import Mathlib

/-!
Verification of the iterative-refinement core of gubbins
(`src/python/gubbins/common.py`), shallowly embedded in Lean.

External collaborators (the dendropy tree library's distance, MRCA and
derooting routines, the filesystem) are modelled as explicit parameters;
everything else is translated directly from the Python source.
-/

namespace Gubbins

/-! ## GapReinserter (`reinsert_gaps_into_fasta_file`)

The VCF parsing loop classifies each data line (a line matching `^\d`)
as either a pure gap/constant insertion (appending `1` to `gap_position`
and the carried base to `gap_alt_base`) or a true variant column
(appending `0` and `'-'`).  One `VcfSite` records the pair appended for
one data line. -/

structure VcfSite where
  gapPosition : Bool
  gapAltBase : Char
deriving DecidableEq, Repr

/-- The per-record interleaving loop of `reinsert_gaps_into_fasta_file`
(the `inserted_gaps` accumulator): for each residue of the compressed
sequence, first emit every pending gap column, then the residue; once
the compressed sequence is exhausted, the trailing `while` emits the
recorded alternate base of every remaining site, gap-marked or not. -/
def inserted_gaps : List VcfSite → List Char → List Char
  | [], _ => []
  | s :: rest, seqChars =>
    if s.gapPosition then
      s.gapAltBase :: inserted_gaps rest seqChars
    else
      match seqChars with
      | [] => s.gapAltBase :: inserted_gaps rest []
      | b :: bs => b :: inserted_gaps rest bs

/-- A FASTA record: (record id, sequence). -/
abbrev FastaRecord := String × List Char

/-- The record loop of `reinsert_gaps_into_fasta_file`: records whose id
is among the VCF `#CHROM` sample names are skipped (`continue`); every
other record is gapped with `inserted_gaps`. -/
def gapped_alignments (sample_names : List String) (sites : List VcfSite) :
    List FastaRecord → List FastaRecord
  | [] => []
  | (rid, rseq) :: rest =>
    if rid ∈ sample_names then
      gapped_alignments sample_names sites rest
    else
      (rid, inserted_gaps sites rseq) :: gapped_alignments sample_names sites rest

/-- The function `reinsert_gaps_into_fasta_file` on file contents: the
output file is opened in append mode (`"a"`), so the gapped records are
written after whatever the output file already held. -/
def reinsert_gaps_into_fasta_file (sample_names : List String) (sites : List VcfSite)
    (records : List FastaRecord) (existing_output : List FastaRecord) : List FastaRecord :=
  existing_output ++ gapped_alignments sample_names sites records

/-- Delete from a reinserted sequence the columns at the gap-marked
positions of the variant listing. -/
def dropMarkedColumns (sites : List VcfSite) (out : List Char) : List Char :=
  ((out.zip sites).filter (fun p => !p.2.gapPosition)).map Prod.fst

/-! ## `check_and_fix_window_size` -/

/-- The function `check_and_fix_window_size` clamps `min_window_size` up to 3 and
`max_window_size` down to 1000000, then swaps the two if the minimum
still exceeds the maximum. -/
def check_and_fix_window_size (min_window_size max_window_size : Int) : Int × Int :=
  let m := if min_window_size < 3 then 3 else min_window_size
  let M := if max_window_size > 1000000 then 1000000 else max_window_size
  if m > M then (M, m) else (m, M)

/-! ## ConvergenceChecker: recombination identity
(`extract_recombinations_from_embl`, `have_recombinations_been_seen_before`)

One line of a `.tab` file, classified as the parsing loop does (the
`misc_feature` pattern is tried first, then the `taxa=` pattern): -/

inductive EmblLine where
  | misc (startCoord endCoord : Nat)
  | taxa (names : List String)
  | other
deriving DecidableEq, Repr

/-- The taxon → interval-list mapping (`sequences_to_coords`), a Python
dict in insertion order; keys are unique by construction. -/
abbrev RecombMap := List (String × List (Int × Int))

/-- One dict update of the extraction loop: append the interval to an
existing taxon key, or insert a fresh key at the end. -/
def add_recombination_coord (m : RecombMap) (name : String) (c : Int × Int) : RecombMap :=
  if m.any (fun kv => kv.1 = name) then
    m.map (fun kv => if kv.1 = name then (kv.1, kv.2 ++ [c]) else kv)
  else
    m ++ [(name, [c])]

/-- The line loop of `extract_recombinations_from_embl`: a
`misc_feature` line stores its coordinates; a `taxa=` line, seen while
both stored coordinates are non-negative, appends the stored interval
for every listed taxon and resets the coordinates to -1. -/
def extract_recombinations_loop : List EmblLine → Int → Int → RecombMap → RecombMap
  | [], _, _, m => m
  | .misc s e :: rest, _, _, m => extract_recombinations_loop rest (s : Int) (e : Int) m
  | .taxa names :: rest, sc, ec, m =>
    if 0 ≤ sc ∧ 0 ≤ ec then
      extract_recombinations_loop rest (-1) (-1)
        (names.foldl (fun acc n => add_recombination_coord acc n (sc, ec)) m)
    else
      extract_recombinations_loop rest sc ec m
  | .other :: rest, sc, ec, m => extract_recombinations_loop rest sc ec m

/-- The function `extract_recombinations_from_embl` on the (pre-lexed) lines of a
`.tab` file. -/
def extract_recombinations_from_embl (lines : List EmblLine) : RecombMap :=
  extract_recombinations_loop lines (-1) (-1) []

/-- Python `==` on the two dicts: same key set and, for each key, the
identical interval list (element order included). -/
def pyDictEq (a b : RecombMap) : Bool :=
  a.all (fun kv => decide (List.lookup kv.1 b = some kv.2)) &&
  b.all (fun kv => decide (List.lookup kv.1 a = some kv.2))

/-- The function `have_recombinations_been_seen_before`: a missing file is `none`
(`os.path.exists` fails); files are their pre-lexed line lists. -/
def have_recombinations_been_seen_before (current_file : Option (List EmblLine))
    (previous_files : List (Option (List EmblLine))) : Bool :=
  match current_file with
  | none => false
  | some cur =>
    previous_files.any (fun pf =>
      match pf with
      | none => false
      | some pl =>
        pyDictEq (extract_recombinations_from_embl cur) (extract_recombinations_from_embl pl))

/-- Modelled from the spec: "set-equal (same taxon keys, same interval
lists, order-independent within a taxon)" — the comparison the spec
ascribes to the recombination-identity convergence test. -/
def specSetEqual (a b : RecombMap) : Bool :=
  a.all (fun kv => match List.lookup kv.1 b with
    | some w => decide ((kv.2 : Multiset (Int × Int)) = (w : Multiset (Int × Int)))
    | none => false) &&
  b.all (fun kv => match List.lookup kv.1 a with
    | some w => decide ((kv.2 : Multiset (Int × Int)) = (w : Multiset (Int × Int)))
    | none => false)

/-! ## ConvergenceChecker: topological distance
(`has_tree_been_seen_before`)

`robinson_foulds_distance` and `symmetric_difference` delegate the
distance computation to the dendropy library (an external
collaborator); they appear here as oracle parameters `weighted_rf`
(a real-valued weighted Robinson–Foulds distance, modelled over ℚ) and
`sym_diff` (a bipartition count).  `file_exists` models
`os.path.exists`.  Python's `is not` test against
`tree_files_which_exist[-1]` is modelled as string inequality with the
last element. -/

def has_tree_been_seen_before (file_exists : String → Bool)
    (weighted_rf : String → String → ℚ) (sym_diff : String → String → ℕ)
    (tree_file_names : List String) (converge_method : String) : Bool :=
  if tree_file_names.length ≤ 2 then
    false
  else
    let tree_files_which_exist := tree_file_names.filter file_exists
    tree_files_which_exist.any (fun n =>
      if n = tree_files_which_exist.getLast! then
        false
      else if converge_method = "weighted_robinson_foulds" then
        decide (weighted_rf n tree_files_which_exist.getLast! = 0)
      else
        decide (sym_diff n tree_files_which_exist.getLast! = 0))

/-! ## TreeTopologyOps

A dendropy tree: a leaf carries a taxon label, an internal node an
optional label and a list of children; every node carries the length of
its incoming edge (a rational stands in for the float). -/

inductive PTree where
  | leaf (taxon : String) (edgeLength : ℚ)
  | node (label : Option String) (edgeLength : ℚ) (children : List PTree)
deriving Repr

mutual
def PTree.size : PTree → Nat
  | .leaf _ _ => 1
  | .node _ _ cs => 1 + PTree.sizeList cs
def PTree.sizeList : List PTree → Nat
  | [] => 0
  | t :: ts => PTree.size t + PTree.sizeList ts
end

/-- The function `split_all_non_bi_nodes` with `split_child_nodes`
inlined: a node with more than 2 children is rebuilt with two children —
the popped last child and a fresh zero-length unlabelled placeholder
holding the remaining children — and the recursion then descends into
the (new) children, as the source's post-split loop does. -/
def split_all_non_bi_nodes : PTree → PTree
  | .leaf tx e => .leaf tx e
  | .node lbl e cs =>
    if h : 2 < cs.length then
      .node lbl e
        [split_all_non_bi_nodes (cs.getLast (List.ne_nil_of_length_pos (by omega))),
         split_all_non_bi_nodes (.node none 0 cs.dropLast)]
    else
      .node lbl e (cs.attach.map fun c => split_all_non_bi_nodes c.1)
termination_by t => PTree.size t
decreasing_by
  · rename_i lbl e cs
    have hmem : ∀ (l : List PTree) (x : PTree), x ∈ l → PTree.size x ≤ PTree.sizeList l := by
      intro l x hx
      induction l with
      | nil => cases hx
      | cons a as ih =>
        rcases List.mem_cons.mp hx with rfl | hx2
        · simp only [PTree.sizeList]; omega
        · have := ih hx2; simp only [PTree.sizeList]; omega
    refine lt_of_le_of_lt (hmem cs _ (List.getLast_mem _)) ?_
    simp only [PTree.size]
    omega
  · rename_i lbl e cs
    have happ : ∀ l1 l2 : List PTree,
        PTree.sizeList (l1 ++ l2) = PTree.sizeList l1 + PTree.sizeList l2 := by
      intro l1 l2
      induction l1 with
      | nil => simp only [List.nil_append, PTree.sizeList]; omega
      | cons a as ih =>
        simp only [List.cons_append, PTree.sizeList, List.append_eq]
        omega
    have hpos : ∀ t : PTree, 1 ≤ PTree.size t := by
      intro t; cases t <;> simp only [PTree.size] <;> omega
    have hne : cs ≠ [] := List.ne_nil_of_length_pos (by omega)
    have hsplit : PTree.sizeList cs =
        PTree.sizeList cs.dropLast + PTree.size (cs.getLast hne) := by
      conv_lhs => rw [← List.dropLast_append_getLast hne]
      rw [happ]
      simp only [PTree.sizeList]
      omega
    have hp := hpos (cs.getLast hne)
    simp only [PTree.size]
    omega
  · rename_i c
    have hmem : ∀ (l : List PTree) (x : PTree), x ∈ l → PTree.size x ≤ PTree.sizeList l := by
      intro l x hx
      induction l with
      | nil => cases hx
      | cons a as ih =>
        rcases List.mem_cons.mp hx with rfl | hx2
        · simp only [PTree.sizeList]; omega
        · have := ih hx2; simp only [PTree.sizeList]; omega
    refine lt_of_le_of_lt (hmem _ c.1 c.2) ?_
    simp only [PTree.size]
    omega

/-! Observers for the multifurcation-repair specification. -/

mutual
def PTree.maxTwoChildren : PTree → Bool
  | .leaf _ _ => true
  | .node _ _ cs => decide (cs.length ≤ 2) && PTree.maxTwoChildrenList cs
def PTree.maxTwoChildrenList : List PTree → Bool
  | [] => true
  | t :: ts => PTree.maxTwoChildren t && PTree.maxTwoChildrenList ts
end

mutual
def PTree.leafMultiset : PTree → Multiset String
  | .leaf tx _ => {tx}
  | .node _ _ cs => PTree.leafMultisetList cs
def PTree.leafMultisetList : List PTree → Multiset String
  | [] => 0
  | t :: ts => PTree.leafMultiset t + PTree.leafMultisetList ts
end

mutual
def PTree.internalData : PTree → Multiset (Option String × ℚ)
  | .leaf _ _ => 0
  | .node lbl e cs => {(lbl, e)} + PTree.internalDataList cs
def PTree.internalDataList : List PTree → Multiset (Option String × ℚ)
  | [] => 0
  | t :: ts => PTree.internalData t + PTree.internalDataList ts
end

mutual
def PTree.internalCount : PTree → Nat
  | .leaf _ _ => 0
  | .node _ _ cs => 1 + PTree.internalCountList cs
def PTree.internalCountList : List PTree → Nat
  | [] => 0
  | t :: ts => PTree.internalCount t + PTree.internalCountList ts
end

/-! The label-harvesting loop of `transfer_internal_node_labels_to_tree`
collects, over the internal nodes in the tree's own (preorder) traversal
order, the node's label, or the empty string for an unlabelled node. -/

mutual
def PTree.internalLabels : PTree → List String
  | .leaf _ _ => []
  | .node lbl _ cs =>
    (match lbl with
      | some l => l
      | none => "") :: PTree.internalLabelsList cs
def PTree.internalLabelsList : List PTree → List String
  | [] => []
  | t :: ts => PTree.internalLabels t ++ PTree.internalLabelsList ts
end

/-! The assignment loop of `transfer_internal_node_labels_to_tree`:
destination internal nodes are enumerated in the same traversal order,
the `index`-th one receiving
`sequence_reconstructor.replace_internal_node_label` (here the
parameter `rep`) of the `index`-th harvested source label; an index past
the end of the source-label list is Python's `IndexError`, modelled as
`none`. -/

mutual
def transferNode (labels : List String) (rep : String → String) :
    PTree → Nat → Option (PTree × Nat)
  | .leaf tx e, i => some (.leaf tx e, i)
  | .node _ e cs, i =>
    match labels[i]? with
    | none => none
    | some l =>
      match transferList labels rep cs (i + 1) with
      | none => none
      | some (cs', j) => some (.node (some (rep l)) e cs', j)
def transferList (labels : List String) (rep : String → String) :
    List PTree → Nat → Option (List PTree × Nat)
  | [], i => some ([], i)
  | c :: ts, i =>
    match transferNode labels rep c i with
    | none => none
    | some (c', j) =>
      match transferList labels rep ts j with
      | none => none
      | some (ts', j') => some (c' :: ts', j')
end

/-- The function `transfer_internal_node_labels_to_tree` on parsed
trees; the destination node's fresh taxon label (the source writes it as
a `Taxon` and serializes internal taxon labels) is stored in the label
field of the result. -/
def transfer_internal_node_labels_to_tree (rep : String → String)
    (source_tree destination_tree : PTree) : Option PTree :=
  (transferNode (PTree.internalLabels source_tree) rep destination_tree 0).map Prod.fst

/-- The function `get_monophyletic_outgroup`: the derooted tree's MRCA
computation is delegated to dendropy (an external collaborator), so the
leaf labels of `tree.mrca(taxon_labels=outgroups)` appear as the oracle
parameter `mrca_leaf_labels`.  The boolean records whether the
non-monophyly diagnostic was printed. -/
def get_monophyletic_outgroup (mrca_leaf_labels : List String → List String)
    (outgroups : List String) : List String × Bool :=
  if outgroups.length = 1 then
    (outgroups, false)
  else
    match (mrca_leaf_labels outgroups).find? (fun l => decide (l ∉ outgroups)) with
    | some _ => ([outgroups.headI], true)
    | none => (outgroups, false)

end Gubbins

namespace Gubbins

/-! ### Lemmas about the gap reinserter -/

theorem inserted_gaps_spec (sites : List VcfSite) :
    ∀ seqChars : List Char,
      seqChars.length = (sites.filter (fun s => !s.gapPosition)).length →
      (inserted_gaps sites seqChars).length = sites.length ∧
      dropMarkedColumns sites (inserted_gaps sites seqChars) = seqChars := by
  induction sites with
  | nil =>
    intro seqChars h
    simp at h
    subst h
    simp [inserted_gaps, dropMarkedColumns]
  | cons s rest ih =>
    intro seqChars h
    by_cases hg : s.gapPosition
    · have h' : seqChars.length = (rest.filter (fun s => !s.gapPosition)).length := by
        simpa [List.filter_cons, hg] using h
      obtain ⟨hlen, hdrop⟩ := ih seqChars h'
      constructor
      · simp [inserted_gaps, hg, hlen]
      · simpa [inserted_gaps, hg, dropMarkedColumns, List.filter_cons] using hdrop
    · have h' : seqChars.length = (rest.filter (fun s => !s.gapPosition)).length + 1 := by
        simpa [List.filter_cons, hg] using h
      cases seqChars with
      | nil => simp at h'
      | cons b bs =>
        have hbs : bs.length = (rest.filter (fun s => !s.gapPosition)).length := by
          simpa using h'
        obtain ⟨hlen, hdrop⟩ := ih bs hbs
        constructor
        · simp [inserted_gaps, hg, hlen]
        · simpa [inserted_gaps, hg, dropMarkedColumns, List.filter_cons] using hdrop

theorem gapped_alignments_mem (sample_names : List String) (sites : List VcfSite)
    (records : List FastaRecord) (rid : String) (rseq : List Char)
    (hmem : (rid, rseq) ∈ records) (hid : rid ∉ sample_names) :
    (rid, inserted_gaps sites rseq) ∈ gapped_alignments sample_names sites records := by
  induction records with
  | nil => simp at hmem
  | cons r rest ih =>
    match r with
    | (rid', rseq') =>
      rcases List.mem_cons.mp hmem with heq | htl
      · obtain ⟨h1, h2⟩ := Prod.mk.injEq .. ▸ heq
        subst h1; subst h2
        simp [gapped_alignments, hid]
      · by_cases hs : rid' ∈ sample_names
        · simpa [gapped_alignments, hs] using ih htl
        · simp [gapped_alignments, hs]
          right
          exact ih htl

theorem gapped_alignments_not_sample (sample_names : List String) (sites : List VcfSite)
    (records : List FastaRecord) :
    ∀ r ∈ gapped_alignments sample_names sites records, r.1 ∉ sample_names := by
  induction records with
  | nil => simp [gapped_alignments]
  | cons rec0 rest ih =>
    match rec0 with
    | (rid', rseq') =>
      intro r hr
      by_cases hs : rid' ∈ sample_names
      · exact ih r (by simpa [gapped_alignments, hs] using hr)
      · rcases List.mem_cons.mp (by simpa [gapped_alignments, hs] using hr) with heq | htl
        · subst heq; simpa using hs
        · exact ih r htl

/-- Claim C1: for a variant listing with `L` data lines of which `k` are
gap-marked, a non-sample record whose compressed sequence has length
`L - k` is emitted by `reinsert_gaps_into_fasta_file` with length
exactly `L`, and deleting the `k` gap-marked columns from the output
reproduces the compressed input sequence exactly. -/
theorem reinsert_gaps_reconstitutes (sample_names : List String) (sites : List VcfSite)
    (records : List FastaRecord) (existing_output : List FastaRecord)
    (rid : String) (rseq : List Char)
    (hmem : (rid, rseq) ∈ records) (hid : rid ∉ sample_names)
    (hlen : rseq.length = (sites.filter (fun s => !s.gapPosition)).length) :
    (rid, inserted_gaps sites rseq) ∈
        reinsert_gaps_into_fasta_file sample_names sites records existing_output ∧
    (inserted_gaps sites rseq).length = sites.length ∧
    dropMarkedColumns sites (inserted_gaps sites rseq) = rseq := by
  obtain ⟨h1, h2⟩ := inserted_gaps_spec sites rseq hlen
  refine ⟨?_, h1, h2⟩
  unfold reinsert_gaps_into_fasta_file
  exact List.mem_append_right _ (gapped_alignments_mem sample_names sites records rid rseq hmem hid)

/-- Concrete instantiation of `reinsert_gaps_reconstitutes`: a listing of
4 data lines with 2 gap-marked, an internal-node record of length 2. -/
theorem reinsert_gaps_reconstitutes_witness :
    (("internal_1" : String), inserted_gaps
        [⟨true, '-'⟩, ⟨false, '-'⟩, ⟨true, 'A'⟩, ⟨false, '-'⟩] ['C', 'T']) ∈
      reinsert_gaps_into_fasta_file ["sample_1"]
        [⟨true, '-'⟩, ⟨false, '-'⟩, ⟨true, 'A'⟩, ⟨false, '-'⟩]
        [("sample_1", ['G', 'G']), ("internal_1", ['C', 'T'])]
        [("sample_1", ['G', '-', 'G', '-'])] ∧
    (inserted_gaps [⟨true, '-'⟩, ⟨false, '-'⟩, ⟨true, 'A'⟩, ⟨false, '-'⟩] ['C', 'T']).length = 4 ∧
    dropMarkedColumns [⟨true, '-'⟩, ⟨false, '-'⟩, ⟨true, 'A'⟩, ⟨false, '-'⟩]
        (inserted_gaps [⟨true, '-'⟩, ⟨false, '-'⟩, ⟨true, 'A'⟩, ⟨false, '-'⟩] ['C', 'T']) =
      ['C', 'T'] :=
  reinsert_gaps_reconstitutes ["sample_1"]
    [⟨true, '-'⟩, ⟨false, '-'⟩, ⟨true, 'A'⟩, ⟨false, '-'⟩]
    [("sample_1", ['G', 'G']), ("internal_1", ['C', 'T'])]
    [("sample_1", ['G', '-', 'G', '-'])]
    "internal_1" ['C', 'T'] (by decide) (by decide) (by decide)

/-- Claim C8: gap reinsertion only appends to the output file — the output
file's pre-existing content (the sample sequences put there by
`parse_and_run`) is an untouched initial segment — and no appended
record has an id among the VCF sample names. -/
theorem reinsert_gaps_frame (sample_names : List String) (sites : List VcfSite)
    (records : List FastaRecord) (existing_output : List FastaRecord) :
    (reinsert_gaps_into_fasta_file sample_names sites records existing_output).take
        existing_output.length = existing_output ∧
    ∀ r ∈ (reinsert_gaps_into_fasta_file sample_names sites records existing_output).drop
        existing_output.length, r.1 ∉ sample_names := by
  constructor
  · unfold reinsert_gaps_into_fasta_file
    exact List.take_left existing_output _
  · unfold reinsert_gaps_into_fasta_file
    rw [List.drop_left]
    exact gapped_alignments_not_sample sample_names sites records

/-- Concrete instantiation of `reinsert_gaps_frame`. -/
theorem reinsert_gaps_frame_witness :
    (reinsert_gaps_into_fasta_file ["sample_1"] [⟨false, '-'⟩]
        [("sample_1", ['G']), ("internal_1", ['C'])]
        [("sample_1", ['G'])]).take 1 = [("sample_1", ['G'])] ∧
    (("internal_1" : String), ['C']) ∈
        (reinsert_gaps_into_fasta_file ["sample_1"] [⟨false, '-'⟩]
          [("sample_1", ['G']), ("internal_1", ['C'])]
          [("sample_1", ['G'])]).drop 1 ∧
    ("internal_1" : String) ∉ ["sample_1"] := by
  refine ⟨?_, by decide, ?_⟩
  · exact (reinsert_gaps_frame ["sample_1"] [⟨false, '-'⟩]
      [("sample_1", ['G']), ("internal_1", ['C'])] [("sample_1", ['G'])]).1
  · exact (reinsert_gaps_frame ["sample_1"] [⟨false, '-'⟩]
      [("sample_1", ['G']), ("internal_1", ['C'])] [("sample_1", ['G'])]).2
      ("internal_1", ['C']) (by decide)

/-- Claim C10: after `check_and_fix_window_size`, min ≤ max always holds, but
the final swap can leave min below 3 or max above 1000000. -/
theorem check_and_fix_window_size_spec :
    (∀ a b : Int, (check_and_fix_window_size a b).1 ≤ (check_and_fix_window_size a b).2) ∧
    (∃ a b : Int, (check_and_fix_window_size a b).1 < 3) ∧
    (∃ a b : Int, 1000000 < (check_and_fix_window_size a b).2) := by
  refine ⟨?_, ⟨5, 2, by decide⟩, ⟨2000000, 100, by decide⟩⟩
  intro a b
  unfold check_and_fix_window_size
  dsimp only
  split <;> split <;> split <;> omega

/-! ### Lemmas about the convergence checkers -/

/-- Claim C2, counterexample: two `.tab` files recording the same two intervals
for taxon "s" in opposite orders.  Their extracted maps are set-equal in
the spec's sense (same taxon keys, same interval lists up to order
within a taxon), yet `have_recombinations_been_seen_before` does not
declare convergence, because the code compares the maps with Python
`==`, which is order-sensitive inside each taxon's interval list. -/
theorem recombination_identity_counterexample :
    specSetEqual
        (extract_recombinations_from_embl
          [.misc 1 2, .taxa ["s"], .misc 3 4, .taxa ["s"]])
        (extract_recombinations_from_embl
          [.misc 3 4, .taxa ["s"], .misc 1 2, .taxa ["s"]]) = true ∧
    have_recombinations_been_seen_before
        (some [.misc 1 2, .taxa ["s"], .misc 3 4, .taxa ["s"]])
        [some [.misc 3 4, .taxa ["s"], .misc 1 2, .taxa ["s"]]] = false := by
  constructor
  · decide
  · decide

/-- Claim C2 as amended: the recombination-identity test declares convergence
exactly when the current file exists and its extracted taxon →
interval-list map is equal, as a Python dict (same taxon keys,
order-independent over keys, and for each taxon the identical interval
list in the same order), to the map of at least one earlier iteration
whose output file still exists. -/
theorem have_recombinations_been_seen_before_spec (current_file : Option (List EmblLine))
    (previous_files : List (Option (List EmblLine))) :
    have_recombinations_been_seen_before current_file previous_files = true ↔
    ∃ cur, current_file = some cur ∧ ∃ pl, some pl ∈ previous_files ∧
      pyDictEq (extract_recombinations_from_embl cur)
        (extract_recombinations_from_embl pl) = true := by
  cases current_file with
  | none => simp [have_recombinations_been_seen_before]
  | some cur =>
    simp only [have_recombinations_been_seen_before, List.any_eq_true]
    constructor
    · rintro ⟨pf, hmem, hb⟩
      cases pf with
      | none => simp at hb
      | some pl => exact ⟨cur, rfl, pl, hmem, hb⟩
    · rintro ⟨cur', hc, pl, hmem, hb⟩
      obtain rfl : cur = cur' := Option.some.inj hc
      exact ⟨some pl, hmem, hb⟩

/-- Claim C3, counterexample: three accumulated tree files, all existing, where
the latest tree is at weighted distance 0 from the *first* tree but at
nonzero distance from the immediately preceding one.  The code declares
convergence anyway, because it compares the latest tree against every
earlier existing tree, not only the immediately preceding one. -/
theorem topological_distance_counterexample :
    has_tree_been_seen_before (fun _ => true)
        (fun a b => if a = "t1" ∧ b = "t3" then 0 else 1) (fun _ _ => 1)
        ["t1", "t2", "t3"] "weighted_robinson_foulds" = true ∧
    ["t1", "t2", "t3"].filter (fun _ => true) = ["t1", "t2", "t3"] ∧
    (fun a b => if a = "t1" ∧ b = "t3" then (0 : ℚ) else 1) "t2" "t3" ≠ 0 := by
  refine ⟨by decide, by decide, by decide⟩

/-- Claim C3 as amended: with more than two accumulated tree files, the
topological-distance test declares convergence exactly when *some*
existing tree file other than (the value of) the last existing one is at
distance zero — weighted Robinson–Foulds distance in the weighted
variant, unweighted symmetric-difference count otherwise — from the
last existing tree file. -/
theorem has_tree_been_seen_before_spec (file_exists : String → Bool)
    (weighted_rf : String → String → ℚ) (sym_diff : String → String → ℕ)
    (tree_file_names : List String) (converge_method : String)
    (h : 2 < tree_file_names.length) :
    has_tree_been_seen_before file_exists weighted_rf sym_diff tree_file_names converge_method
      = true ↔
    ∃ n ∈ tree_file_names.filter file_exists,
      n ≠ (tree_file_names.filter file_exists).getLast! ∧
      (if converge_method = "weighted_robinson_foulds" then
        weighted_rf n ((tree_file_names.filter file_exists).getLast!) = 0
      else
        sym_diff n ((tree_file_names.filter file_exists).getLast!) = 0) := by
  unfold has_tree_been_seen_before
  rw [if_neg (by omega)]
  simp only [List.any_eq_true]
  refine exists_congr fun n => and_congr_right fun _ => ?_
  by_cases hn : n = (tree_file_names.filter file_exists).getLast!
  · simp [hn]
  · by_cases hm : converge_method = "weighted_robinson_foulds"
    · simp [hn, hm]
    · simp [hn, hm]

/-- Concrete instantiation of `has_tree_been_seen_before_spec`. -/
theorem has_tree_been_seen_before_spec_witness :
    has_tree_been_seen_before (fun _ => true) (fun _ _ => 0) (fun _ _ => 1)
      ["a", "b", "c"] "weighted_robinson_foulds" = true :=
  (has_tree_been_seen_before_spec (fun _ => true) (fun _ _ => 0) (fun _ _ => 1)
    ["a", "b", "c"] "weighted_robinson_foulds" (by decide)).mpr
    ⟨"a", by decide, by decide, by decide⟩

/-- Claim C5: the topological-distance test returns false whenever at most two
tree files have accumulated. -/
theorem has_tree_been_seen_before_first_two (file_exists : String → Bool)
    (weighted_rf : String → String → ℚ) (sym_diff : String → String → ℕ)
    (tree_file_names : List String) (converge_method : String)
    (h : tree_file_names.length ≤ 2) :
    has_tree_been_seen_before file_exists weighted_rf sym_diff tree_file_names converge_method
      = false := by
  unfold has_tree_been_seen_before
  rw [if_pos h]

/-- Concrete instantiation of `has_tree_been_seen_before_first_two`. -/
theorem has_tree_been_seen_before_first_two_witness :
    has_tree_been_seen_before (fun _ => true) (fun _ _ => 0) (fun _ _ => 0)
      ["a", "b"] "weighted_robinson_foulds" = false :=
  has_tree_been_seen_before_first_two (fun _ => true) (fun _ _ => 0) (fun _ _ => 0)
    ["a", "b"] "weighted_robinson_foulds" (by decide)

/-! ### Lemmas about the tree operations -/

theorem PTree.size_pos (t : PTree) : 1 ≤ PTree.size t := by
  cases t <;> simp only [PTree.size] <;> omega

theorem PTree.size_le_of_mem {l : List PTree} {c : PTree} (h : c ∈ l) :
    PTree.size c ≤ PTree.sizeList l := by
  induction l with
  | nil => cases h
  | cons a as ih =>
    rcases List.mem_cons.mp h with rfl | h2
    · simp only [PTree.sizeList]; omega
    · have := ih h2; simp only [PTree.sizeList]; omega

theorem PTree.sizeList_append (l1 l2 : List PTree) :
    PTree.sizeList (l1 ++ l2) = PTree.sizeList l1 + PTree.sizeList l2 := by
  induction l1 with
  | nil => simp only [List.nil_append, PTree.sizeList]; omega
  | cons a as ih =>
    simp only [List.cons_append, PTree.sizeList, List.append_eq]
    omega

theorem PTree.sizeList_dropLast (cs : List PTree) (hne : cs ≠ []) :
    PTree.sizeList cs = PTree.sizeList cs.dropLast + PTree.size (cs.getLast hne) := by
  conv_lhs => rw [← List.dropLast_append_getLast hne]
  rw [PTree.sizeList_append]
  simp only [PTree.sizeList]
  omega

theorem PTree.leafMultisetList_dropLast (cs : List PTree) (hne : cs ≠ []) :
    PTree.leafMultisetList cs =
      PTree.leafMultisetList cs.dropLast + PTree.leafMultiset (cs.getLast hne) := by
  have happ : ∀ l1 l2 : List PTree,
      PTree.leafMultisetList (l1 ++ l2) =
        PTree.leafMultisetList l1 + PTree.leafMultisetList l2 := by
    intro l1 l2
    induction l1 with
    | nil => simp only [List.nil_append, PTree.leafMultisetList]; abel
    | cons a as ih =>
      simp only [List.cons_append, PTree.leafMultisetList, List.append_eq, ih]
      abel
  conv_lhs => rw [← List.dropLast_append_getLast hne]
  rw [happ]
  simp only [PTree.leafMultisetList]
  abel

theorem PTree.internalDataList_dropLast (cs : List PTree) (hne : cs ≠ []) :
    PTree.internalDataList cs =
      PTree.internalDataList cs.dropLast + PTree.internalData (cs.getLast hne) := by
  have happ : ∀ l1 l2 : List PTree,
      PTree.internalDataList (l1 ++ l2) =
        PTree.internalDataList l1 + PTree.internalDataList l2 := by
    intro l1 l2
    induction l1 with
    | nil => simp only [List.nil_append, PTree.internalDataList]; abel
    | cons a as ih =>
      simp only [List.cons_append, PTree.internalDataList, List.append_eq, ih]
      abel
  conv_lhs => rw [← List.dropLast_append_getLast hne]
  rw [happ]
  simp only [PTree.internalDataList]
  abel

theorem attach_map_split (l : List PTree) :
    (l.attach.map fun c => split_all_non_bi_nodes c.1) = l.map split_all_non_bi_nodes := by
  rw [List.attach_map_val]

theorem split_spec_aux : ∀ (n : Nat) (t : PTree), PTree.size t ≤ n →
    PTree.maxTwoChildren (split_all_non_bi_nodes t) = true ∧
    PTree.leafMultiset (split_all_non_bi_nodes t) = PTree.leafMultiset t ∧
    ∃ k, PTree.internalData (split_all_non_bi_nodes t) =
      PTree.internalData t + Multiset.replicate k (none, (0 : ℚ)) := by
  intro n
  induction n with
  | zero =>
    intro t ht
    have := PTree.size_pos t
    omega
  | succ n ih =>
    intro t ht
    cases t with
    | leaf tx e =>
      refine ⟨by simp [split_all_non_bi_nodes, PTree.maxTwoChildren],
        by simp [split_all_non_bi_nodes], 0, by simp [split_all_non_bi_nodes, PTree.internalData]⟩
    | node lbl e cs =>
      have hszcs : PTree.sizeList cs ≤ n := by
        simp only [PTree.size] at ht; omega
      by_cases h2 : 2 < cs.length
      · have hne : cs ≠ [] := List.ne_nil_of_length_pos (by omega)
        have heq : split_all_non_bi_nodes (.node lbl e cs) =
            .node lbl e
              [split_all_non_bi_nodes (cs.getLast hne),
               split_all_non_bi_nodes (.node none 0 cs.dropLast)] := by
          rw [split_all_non_bi_nodes]
          rw [dif_pos h2]
        have hlast_le : PTree.size (cs.getLast hne) ≤ n :=
          le_trans (PTree.size_le_of_mem (List.getLast_mem hne)) hszcs
        have hP_le : PTree.size (.node none 0 cs.dropLast) ≤ n := by
          have hd := PTree.sizeList_dropLast cs hne
          have hp := PTree.size_pos (cs.getLast hne)
          simp only [PTree.size]
          omega
        obtain ⟨b1, m1, k1, d1⟩ := ih _ hlast_le
        obtain ⟨b2, m2, k2, d2⟩ := ih _ hP_le
        refine ⟨?_, ?_, k1 + k2 + 1, ?_⟩
        · rw [heq]
          simp [PTree.maxTwoChildren, PTree.maxTwoChildrenList, b1, b2]
        · rw [heq]
          simp only [PTree.leafMultiset, PTree.leafMultisetList, m1] at *
          rw [m2]
          rw [PTree.leafMultisetList_dropLast cs hne]
          abel
        · rw [heq]
          simp only [PTree.internalData, PTree.internalDataList, d1] at *
          rw [d2]
          rw [PTree.internalDataList_dropLast cs hne]
          rw [Multiset.replicate_add, Multiset.replicate_add, Multiset.replicate_one]
          abel
      · have heq : split_all_non_bi_nodes (.node lbl e cs) =
            .node lbl e (cs.map split_all_non_bi_nodes) := by
          rw [split_all_non_bi_nodes]
          rw [dif_neg h2]
          rw [attach_map_split]
        have hlist : ∀ l : List PTree, (∀ c ∈ l, PTree.size c ≤ n) →
            PTree.maxTwoChildrenList (l.map split_all_non_bi_nodes) = true ∧
            PTree.leafMultisetList (l.map split_all_non_bi_nodes) = PTree.leafMultisetList l ∧
            ∃ k, PTree.internalDataList (l.map split_all_non_bi_nodes) =
              PTree.internalDataList l + Multiset.replicate k (none, (0 : ℚ)) := by
          intro l
          induction l with
          | nil =>
            intro _
            exact ⟨rfl, rfl, 0, by simp [PTree.internalDataList]⟩
          | cons a as ihl =>
            intro hall
            obtain ⟨ba, ma, ka, da⟩ := ih a (hall a (by simp))
            obtain ⟨bs, ms, ks, ds⟩ := ihl (fun c hc => hall c (by simp [hc]))
            refine ⟨?_, ?_, ka + ks, ?_⟩
            · simp only [List.map_cons, PTree.maxTwoChildrenList, ba, bs, Bool.and_self]
            · simp only [List.map_cons, PTree.leafMultisetList, ma, ms]
            · simp only [List.map_cons, PTree.internalDataList, da, ds,
                Multiset.replicate_add]
              abel
        obtain ⟨hb, hm, k, hd⟩ := hlist cs (fun c hc => le_trans (PTree.size_le_of_mem hc) hszcs)
        refine ⟨?_, ?_, k, ?_⟩
        · rw [heq]
          simp only [PTree.maxTwoChildren, hb, List.length_map, Bool.and_true,
            decide_eq_true_eq]
          omega
        · rw [heq]
          simp only [PTree.leafMultiset, hm]
        · rw [heq]
          simp only [PTree.internalData, hd]
          abel

/-- Claim C6: after `split_all_non_bi_nodes` is applied to the root of
any tree, every internal node has at most 2 children, the multiset of
leaf taxa is unchanged, and the internal nodes are those of the input
plus some number of inserted placeholders, each unlabelled and of edge
length 0. -/
theorem split_all_non_bi_nodes_spec (t : PTree) :
    PTree.maxTwoChildren (split_all_non_bi_nodes t) = true ∧
    PTree.leafMultiset (split_all_non_bi_nodes t) = PTree.leafMultiset t ∧
    ∃ k, PTree.internalData (split_all_non_bi_nodes t) =
      PTree.internalData t + Multiset.replicate k (none, (0 : ℚ)) :=
  split_spec_aux (PTree.size t) t (le_refl _)

mutual
theorem PTree.internalLabels_length : ∀ t : PTree,
    (PTree.internalLabels t).length = PTree.internalCount t
  | .leaf _ _ => rfl
  | .node lbl e cs => by
    simp only [PTree.internalLabels, PTree.internalCount, List.length_cons]
    rw [PTree.internalLabelsList_length cs]
    omega
theorem PTree.internalLabelsList_length : ∀ l : List PTree,
    (PTree.internalLabelsList l).length = PTree.internalCountList l
  | [] => rfl
  | t :: ts => by
    simp only [PTree.internalLabelsList, PTree.internalCountList, List.length_append]
    rw [PTree.internalLabels_length t, PTree.internalLabelsList_length ts]
end

mutual
theorem transferNode_spec (labels : List String) (rep : String → String) :
    ∀ (t : PTree) (i : Nat), i + PTree.internalCount t ≤ labels.length →
    ∃ t', transferNode labels rep t i = some (t', i + PTree.internalCount t) ∧
      PTree.internalLabels t' = ((labels.drop i).take (PTree.internalCount t)).map rep
  | .leaf tx e, i, _ =>
    ⟨.leaf tx e, by simp [transferNode, PTree.internalCount, PTree.internalLabels]⟩
  | .node lbl e cs, i, h => by
    have hc : PTree.internalCount (.node lbl e cs) = 1 + PTree.internalCountList cs := rfl
    have hi : i < labels.length := by rw [hc] at h; omega
    have hl : labels[i]? = some labels[i] := List.getElem?_eq_getElem hi
    have hcs : (i + 1) + PTree.internalCountList cs ≤ labels.length := by
      rw [hc] at h; omega
    obtain ⟨cs', hsome, hlabs⟩ := transferList_spec labels rep cs (i + 1) hcs
    refine ⟨.node (some (rep labels[i])) e cs', ?_, ?_⟩
    · simp only [transferNode, hl, hsome]
      have harith : (i + 1) + PTree.internalCountList cs =
          i + PTree.internalCount (.node lbl e cs) := by rw [hc]; omega
      rw [harith]
    · simp only [PTree.internalLabels, hlabs]
      rw [hc, List.drop_eq_getElem_cons hi]
      have : (1 : Nat) + PTree.internalCountList cs = PTree.internalCountList cs + 1 := by
        omega
      rw [this, List.take_succ_cons, List.map_cons]
theorem transferList_spec (labels : List String) (rep : String → String) :
    ∀ (l : List PTree) (i : Nat), i + PTree.internalCountList l ≤ labels.length →
    ∃ l', transferList labels rep l i = some (l', i + PTree.internalCountList l) ∧
      PTree.internalLabelsList l' = ((labels.drop i).take (PTree.internalCountList l)).map rep
  | [], i, _ => ⟨[], by simp [transferList, PTree.internalCountList, PTree.internalLabelsList]⟩
  | c :: ts, i, h => by
    have hc : PTree.internalCountList (c :: ts) =
        PTree.internalCount c + PTree.internalCountList ts := rfl
    obtain ⟨c', hcsome, hclabs⟩ := transferNode_spec labels rep c i (by rw [hc] at h; omega)
    obtain ⟨ts', htsome, htlabs⟩ :=
      transferList_spec labels rep ts (i + PTree.internalCount c) (by rw [hc] at h; omega)
    refine ⟨c' :: ts', ?_, ?_⟩
    · simp only [transferList, hcsome, htsome]
      have harith : i + PTree.internalCount c + PTree.internalCountList ts =
          i + PTree.internalCountList (c :: ts) := by rw [hc]; omega
      rw [harith]
    · simp only [PTree.internalLabelsList, hclabs, htlabs]
      rw [hc]
      rw [List.take_add, List.map_append, List.drop_drop]
end

mutual
theorem transferNode_none (labels : List String) (rep : String → String) :
    ∀ (t : PTree) (i : Nat), 1 ≤ PTree.internalCount t →
      labels.length < i + PTree.internalCount t → transferNode labels rep t i = none
  | .leaf _ _, _, hc, _ => by simp [PTree.internalCount] at hc
  | .node lbl e cs, i, _, h => by
    have hc : PTree.internalCount (.node lbl e cs) = 1 + PTree.internalCountList cs := rfl
    by_cases hi : i < labels.length
    · have hl : labels[i]? = some labels[i] := List.getElem?_eq_getElem hi
      have h1 : labels.length < (i + 1) + PTree.internalCountList cs := by rw [hc] at h; omega
      have h2 : 1 ≤ PTree.internalCountList cs := by omega
      simp only [transferNode, hl, transferList_none labels rep cs (i + 1) h2 h1]
    · have hl : labels[i]? = none := List.getElem?_eq_none (by omega)
      simp [transferNode, hl]
theorem transferList_none (labels : List String) (rep : String → String) :
    ∀ (l : List PTree) (i : Nat), 1 ≤ PTree.internalCountList l →
      labels.length < i + PTree.internalCountList l → transferList labels rep l i = none
  | [], _, hc, _ => by simp [PTree.internalCountList] at hc
  | c :: ts, i, _, h => by
    have hc : PTree.internalCountList (c :: ts) =
        PTree.internalCount c + PTree.internalCountList ts := rfl
    by_cases hcc : 1 ≤ PTree.internalCount c
    · by_cases hlen : labels.length < i + PTree.internalCount c
      · simp only [transferList, transferNode_none labels rep c i hcc hlen]
      · obtain ⟨c', hcsome, _⟩ := transferNode_spec labels rep c i (by omega)
        have hts : 1 ≤ PTree.internalCountList ts := by rw [hc] at h; omega
        have := transferList_none labels rep ts (i + PTree.internalCount c) hts
          (by rw [hc] at h; omega)
        simp only [transferList, hcsome, this]
    · cases c with
      | node lbl e cs => simp [PTree.internalCount] at hcc
      | leaf tx e =>
        have hts : 1 ≤ PTree.internalCountList ts := by
          rw [hc] at h
          simp only [PTree.internalCount] at *
          omega
        have := transferList_none labels rep ts i hts
          (by rw [hc] at h; simp only [PTree.internalCount] at h; omega)
        simp only [transferList, transferNode, this]
end

/-- Claim C7: when the destination tree has no more internal nodes than
the source tree, label transfer succeeds and the internal labels of the
output, in the destination tree's own traversal order, are the
transform applied to the source tree's internal labels, in the source
tree's own traversal order, position by position. -/
theorem transfer_internal_node_labels_spec (rep : String → String) (src dst : PTree)
    (h : PTree.internalCount dst ≤ PTree.internalCount src) :
    (transfer_internal_node_labels_to_tree rep src dst).map PTree.internalLabels =
      some (((PTree.internalLabels src).take (PTree.internalCount dst)).map rep) := by
  obtain ⟨t', hsome, hlabs⟩ := transferNode_spec (PTree.internalLabels src) rep dst 0
    (by rw [PTree.internalLabels_length]; omega)
  unfold transfer_internal_node_labels_to_tree
  rw [hsome]
  simp [hlabs]

/-- Claim C9: when the destination tree has more internal nodes than the
source tree, the positional lookup runs off the end of the source-label
list and the transfer fails (IndexError) instead of producing a tree. -/
theorem transfer_internal_node_labels_overflow (rep : String → String) (src dst : PTree)
    (h : PTree.internalCount src < PTree.internalCount dst) :
    transfer_internal_node_labels_to_tree rep src dst = none := by
  unfold transfer_internal_node_labels_to_tree
  rw [transferNode_none (PTree.internalLabels src) rep dst 0 (by omega)
    (by rw [PTree.internalLabels_length]; omega)]
  rfl

/-- Concrete instantiation of `transfer_internal_node_labels_spec`. -/
theorem transfer_spec_witness :
    (transfer_internal_node_labels_to_tree (fun s => s ++ ("_x"))
        (PTree.node (some ("n1")) 1 [.leaf ("a") 1, .leaf ("b") 1])
        (PTree.node none 2 [.leaf ("a") 1, .leaf ("b") 1])).map PTree.internalLabels =
      some ["n1_x"] := by
  have h := transfer_internal_node_labels_spec (fun s => s ++ ("_x"))
    (PTree.node (some ("n1")) 1 [.leaf ("a") 1, .leaf ("b") 1])
    (PTree.node none 2 [.leaf ("a") 1, .leaf ("b") 1])
    (by simp [PTree.internalCount, PTree.internalCountList])
  simpa [PTree.internalLabels, PTree.internalLabelsList, PTree.internalCount,
    PTree.internalCountList] using h

/-- Concrete instantiation of `transfer_internal_node_labels_overflow`. -/
theorem transfer_overflow_witness :
    transfer_internal_node_labels_to_tree (fun s => s)
      (PTree.leaf ("a") 0) (PTree.node none 0 []) = none :=
  transfer_internal_node_labels_overflow (fun s => s) (PTree.leaf ("a") 0)
    (PTree.node none 0 [])
    (by simp [PTree.internalCount, PTree.internalCountList])

/-- Claim C4: one outgroup label is used directly; several labels are
all used when the leaf set of their most-recent-common-ancestor clade
contains only listed labels, and otherwise the function prints a
diagnostic and falls back, non-fatally, to the first listed label. -/
theorem get_monophyletic_outgroup_spec (mrca_leaf_labels : List String → List String)
    (outgroups : List String) :
    (outgroups.length = 1 →
      get_monophyletic_outgroup mrca_leaf_labels outgroups = (outgroups, false)) ∧
    (outgroups.length ≠ 1 →
      ((∀ l ∈ mrca_leaf_labels outgroups, l ∈ outgroups) →
        get_monophyletic_outgroup mrca_leaf_labels outgroups = (outgroups, false)) ∧
      ((∃ l ∈ mrca_leaf_labels outgroups, l ∉ outgroups) →
        get_monophyletic_outgroup mrca_leaf_labels outgroups = ([outgroups.headI], true))) := by
  constructor
  · intro h1
    simp [get_monophyletic_outgroup, h1]
  · intro h1
    constructor
    · intro hall
      have hfind : (mrca_leaf_labels outgroups).find? (fun l => decide (l ∉ outgroups))
          = none := by
        rw [List.find?_eq_none]
        intro x hx
        simpa using hall x hx
      simp only [decide_not] at hfind
      simp [get_monophyletic_outgroup, h1, hfind]
    · rintro ⟨l, hl, hno⟩
      obtain ⟨y, hy⟩ : ∃ y, (mrca_leaf_labels outgroups).find?
          (fun l => decide (l ∉ outgroups)) = some y := by
        cases hfind : (mrca_leaf_labels outgroups).find? (fun l => decide (l ∉ outgroups)) with
        | none =>
          rw [List.find?_eq_none] at hfind
          exact absurd (by simpa using hfind l hl) hno
        | some y => exact ⟨y, rfl⟩
      simp only [decide_not] at hy
      simp [get_monophyletic_outgroup, h1, hy]

/-- Concrete instantiation of `get_monophyletic_outgroup_spec`: the
labels A,B with a clade also holding C fall back to A alone with a
diagnostic; the labels A,B forming an exact clade are both used. -/
theorem get_monophyletic_outgroup_witness :
    get_monophyletic_outgroup (fun _ => ["A", "B", "C"]) ["A", "B"] = (["A"], true) ∧
    get_monophyletic_outgroup (fun _ => ["A", "B"]) ["A", "B"] = (["A", "B"], false) :=
  ⟨((get_monophyletic_outgroup_spec (fun _ => ["A", "B", "C"]) ["A", "B"]).2
      (by decide)).2 ⟨"C", by decide, by decide⟩,
   ((get_monophyletic_outgroup_spec (fun _ => ["A", "B"]) ["A", "B"]).2
      (by decide)).1 (by decide)⟩

end Gubbins
